import Mathlib

/-!
# Verified model of the DungeonMice frame-analysis core

Shallow embedding of `regions.py` (geometric regions), `logic.py`
(zone-occupancy engine) and `tracker.py` (object localizer, from contour
extraction onward).  Python numbers are modelled as `ℚ` (the code uses
exact comparisons on pixel coordinates; no claim probes float rounding),
Python's fallible constructors and the `max`-on-empty-sequence failure as
`Except String`.
-/

namespace DungeonMice

/-- Python's `int(x)` on a number: truncation toward zero.
`np.int32` casts of in-range pixel coordinates truncate the same way. -/
def pyInt (q : ℚ) : ℤ :=
  if q < 0 then ⌈q⌉ else ⌊q⌋

/-- Truncate one image point, as `np.array(points, dtype=np.int32)` does to
every polygon vertex at `PolygonRegion.__init__` (src/regions.py:119-122). -/
def truncPoint (p : ℚ × ℚ) : ℤ × ℤ :=
  (pyInt p.1, pyInt p.2)

/-! ## Point-in-polygon test

`PolygonRegion.contains` calls `cv2.pointPolygonTest(points, pt, False)`,
which returns `+1` for an interior point, `0` for a point exactly on the
boundary and `-1` for an exterior point.  We model it by the standard
even-odd (ray-casting) rule together with an exact on-segment test, which
is the documented behaviour of that library routine. -/

/-- The edge list of a closed polygon: each vertex paired with its
cyclic successor. -/
def edges (l : List (ℤ × ℤ)) : List ((ℤ × ℤ) × (ℤ × ℤ)) :=
  l.zip (l.rotate 1)

/-- Exact test: does point `p` lie on the closed segment from `a` to `b`? -/
def onSegment (a b : ℤ × ℤ) (p : ℚ × ℚ) : Bool :=
  decide (((b.1 : ℚ) - (a.1 : ℚ)) * (p.2 - (a.2 : ℚ))
            - ((b.2 : ℚ) - (a.2 : ℚ)) * (p.1 - (a.1 : ℚ)) = 0
          ∧ min (a.1 : ℚ) (b.1 : ℚ) ≤ p.1 ∧ p.1 ≤ max (a.1 : ℚ) (b.1 : ℚ)
          ∧ min (a.2 : ℚ) (b.2 : ℚ) ≤ p.2 ∧ p.2 ≤ max (a.2 : ℚ) (b.2 : ℚ))

/-- Does the horizontal ray from `p` to the right cross edge `(a, b)`?
(Standard even-odd crossing condition.) -/
def crossesRay (a b : ℤ × ℤ) (p : ℚ × ℚ) : Bool :=
  (decide (p.2 < (a.2 : ℚ)) != decide (p.2 < (b.2 : ℚ)))
  && decide (p.1 < (a.1 : ℚ)
              + ((b.1 : ℚ) - (a.1 : ℚ)) * (p.2 - (a.2 : ℚ))
                / ((b.2 : ℚ) - (a.2 : ℚ)))

/-- Model of `cv2.pointPolygonTest(poly, p, measureDist=False)`:
`0` on the boundary, `1` strictly inside (odd crossing number),
`-1` outside. -/
def pointPolygonTest (poly : List (ℤ × ℤ)) (p : ℚ × ℚ) : ℤ :=
  if (edges poly).any (fun e => onSegment e.1 e.2 p) then 0
  else if ((edges poly).filter (fun e => crossesRay e.1 e.2 p)).length % 2 = 1
  then 1 else -1

/-! ## Regions (src/regions.py) -/

/-- The two concrete `Region` variants.  A polygon stores its vertices
already truncated to integers (the `np.int32` conversion happens in the
constructor); a circle stores an exact center and radius. -/
inductive Region where
  | poly (region_id : String) (points : List (ℤ × ℤ))
  | circle (region_id : String) (center : ℚ × ℚ) (radius : ℚ)
  deriving DecidableEq, Repr

/-- The region's identifier (`self.region_id`). -/
def Region.rid : Region → String
  | .poly i _ => i
  | .circle i _ _ => i

/-- `Region.contains` per variant.  The polygon case is
`cv2.pointPolygonTest(self.points, pt, False) >= 0`
(src/regions.py:127-132); the circle case is the exact algebraic test
`dx*dx + dy*dy <= r*r` (src/regions.py:181-187). -/
def Region.contains : Region → ℚ × ℚ → Bool
  | .poly _ pts, p => decide (0 ≤ pointPolygonTest pts p)
  | .circle _ c r, p =>
      decide ((p.1 - c.1) * (p.1 - c.1) + (p.2 - c.2) * (p.2 - c.2) ≤ r * r)

/-- `PolygonRegion.__init__` (src/regions.py:106-125): vertices are cast
to `int32` first, then the vertex count is checked; fewer than 3 vertices
raises `ValueError`. -/
def mkPolygonRegion (region_id : String) (points : List (ℚ × ℚ)) :
    Except String Region :=
  let stored := points.map truncPoint
  if stored.length < 3 then
    Except.error "Un poligono debe tener al menos 3 puntos"
  else
    Except.ok (Region.poly region_id stored)

/-- `CircleRegion.__init__` (src/regions.py:161-179): non-positive radius
raises `ValueError`. -/
def mkCircleRegion (region_id : String) (center : ℚ × ℚ) (radius : ℚ) :
    Except String Region :=
  if radius ≤ 0 then Except.error "El radio debe ser positivo"
  else Except.ok (Region.circle region_id center radius)

/-- `RegionManager` (src/regions.py:207-222): a plain container. -/
structure RegionManager where
  regions : List Region
  deriving DecidableEq, Repr

/-- `RegionManager.__init__` stores the list as given; it performs no
validation whatsoever, so construction always succeeds.  It is modelled in
`Except` to make "construction fails" statable. -/
def mkRegionManager (regions : List Region) : Except String RegionManager :=
  Except.ok ⟨regions⟩

/-! ## Zone occupancy engine (src/logic.py) -/

/-- `ZoneState.__init__` fields (src/logic.py:22-26). -/
structure ZoneState where
  inside : Bool
  enter_time : Option ℚ
  total_time : ℚ
  entries : ℕ
  deriving DecidableEq, Repr

/-- The freshly constructed record: `inside=False`, `enter_time=None`,
`total_time=0`, `entries=0`. -/
def ZoneState.init : ZoneState :=
  { inside := false, enter_time := none, total_time := 0, entries := 0 }

/-- The per-record transition of `EventLogic.update`
(src/logic.py:79-91): an entry event when the point is inside and the
record was not, an exit event in the symmetric case, otherwise no change.
On exit the code computes `t - state.enter_time`; `enter_time` is `None`
only in states the engine can never reach (there Python would raise a
`TypeError`), and the `getD 0` default is never exercised from a reachable
state. -/
def applyTransition (insideNow : Bool) (t : ℚ) (s : ZoneState) : ZoneState :=
  if insideNow && !s.inside then
    { inside := true, enter_time := some t,
      total_time := s.total_time, entries := s.entries + 1 }
  else if !insideNow && s.inside then
    { inside := false, enter_time := none,
      total_time := s.total_time + (t - s.enter_time.getD 0),
      entries := s.entries }
  else s

/-- Lookup in the `states` dictionary (first entry with the given key). -/
def dictGet (k : String) : List (String × ZoneState) → Option ZoneState
  | [] => none
  | (k', v) :: rest => if k' = k then some v else dictGet k rest

/-- Overwrite the value stored under key `k` (Python dict assignment:
the key keeps its position, only the value changes). -/
def setState (k : String) (v : ZoneState) (d : List (String × ZoneState)) :
    List (String × ZoneState) :=
  d.map (fun kv => if kv.1 = k then (k, v) else kv)

/-- Keys of a Python dict comprehension: first-occurrence order, duplicates
collapsed. -/
def firstDedup : List String → List String
  | [] => []
  | k :: ks => k :: (firstDedup ks).filter (fun k' => k' ≠ k)

/-- `EventLogic` (src/logic.py:29-53): the region list and the
`region.id -> ZoneState` dictionary. -/
structure EventLogic where
  regions : List Region
  states : List (String × ZoneState)
  deriving DecidableEq, Repr

/-- `EventLogic.__init__` (src/logic.py:51-53): the dict comprehension
`{r.region_id: ZoneState() for r in regions}` — one fresh record per
distinct identifier, duplicates collapsing onto a single entry. -/
def EventLogic.init (rm : RegionManager) : EventLogic :=
  { regions := rm.regions,
    states := (firstDedup (rm.regions.map Region.rid)).map
      (fun i => (i, ZoneState.init)) }

/-- One iteration of the region loop in `EventLogic.update`
(src/logic.py:77-91): read the region's record, apply the transition,
write it back.  When neither branch fires the Python code performs no
mutation, which the `s' = s` test reproduces exactly (a fired branch
always flips `inside`, so it never produces an equal record). -/
def stepRegion (p : ℚ × ℚ) (t : ℚ) (d : List (String × ZoneState))
    (r : Region) : List (String × ZoneState) :=
  match dictGet r.rid d with
  | none => d
  | some s =>
      let s' := applyTransition (r.contains p) t s
      if s' = s then d else setState r.rid s' d

/-- `EventLogic.update` (src/logic.py:55-91): `None` position returns
immediately; otherwise every region is processed in order. -/
def EventLogic.update (e : EventLogic) (position : Option (ℚ × ℚ)) (t : ℚ) :
    EventLogic :=
  match position with
  | none => e
  | some p => { e with states := e.regions.foldl (stepRegion p t) e.states }

/-- Fold a stream of `(position-or-absent, timestamp)` samples through the
engine. -/
def runUpdates (e : EventLogic) (samples : List (Option (ℚ × ℚ) × ℚ)) :
    EventLogic :=
  samples.foldl (fun acc x => acc.update x.1 x.2) e

/-! ## Object localizer (src/tracker.py)

`MouseTracker.locate` is modelled from `cv2.findContours` onward: the
contour list extracted from the cleaned foreground mask is the input, each
contour abstracted by its `cv2.contourArea` and its moments `m00`, `m10`,
`m01`.  The selection logic (src/tracker.py:58-79) is the code under
verification; a raised exception is an `Except.error`. -/

/-- A contour as the selection logic observes it. -/
structure Contour where
  area : ℚ
  m00 : ℚ
  m10 : ℚ
  m01 : ℚ
  deriving DecidableEq, Repr

/-- Python's `max(cnts, key=cv2.contourArea)`: the first contour of
maximal area (a later element replaces the current maximum only when
strictly larger), `none` on an empty list (where Python raises
`ValueError`). -/
def pyMaxByArea : List Contour → Option Contour
  | [] => none
  | c :: cs => some (cs.foldl (fun best x => if best.area < x.area then x else best) c)

/-- The contour list after the small-object fallback (src/tracker.py:63-64):
when every contour is below `min_area`, keep only those strictly above the
5-pixel noise floor. -/
def fallbackCnts (minArea : ℚ) (cnts : List Contour) : List Contour :=
  if cnts.all (fun c => decide (c.area < minArea)) then
    cnts.filter (fun c => decide (5 < c.area))
  else cnts

/-- `MouseTracker.locate` from contour extraction onward
(src/tracker.py:58-79).  Returns `ok none` for "not found", `ok (some
(cx, cy))` for a detected centroid (`int(m10/m00)`, `int(m01/m00)`), and
`error` where the Python code raises. -/
def locate (minArea : ℚ) (cnts : List Contour) :
    Except String (Option (ℚ × ℚ)) :=
  if cnts.isEmpty then Except.ok none
  else
    match pyMaxByArea (fallbackCnts minArea cnts) with
    | none => Except.error "max() arg is an empty sequence"
    | some cnt =>
        if cnt.area < minArea then Except.ok none
        else if cnt.m00 = 0 then Except.ok none
        else Except.ok (some ((pyInt (cnt.m10 / cnt.m00) : ℚ),
                              (pyInt (cnt.m01 / cnt.m00) : ℚ)))

/-! ## Specification predicates for the engine invariants -/

/-- The occupancy-record invariant at time bound `b`: `enter_time` is
present exactly when `inside` is true, and any recorded entry timestamp is
no later than `b`. -/
def RecordInv (b : ℚ) (s : ZoneState) : Prop :=
  s.inside = s.enter_time.isSome ∧ ∀ u, s.enter_time = some u → u ≤ b

/-- Every record of the dictionary satisfies `RecordInv b`. -/
def StatesInv (b : ℚ) (d : List (String × ZoneState)) : Prop :=
  ∀ kv ∈ d, RecordInv b kv.2

/-- Pointwise monotonicity of `total_time` and `entries` between two
dictionary snapshots. -/
def DictMono (d d' : List (String × ZoneState)) : Prop :=
  ∀ k s, dictGet k d = some s →
    ∃ s', dictGet k d' = some s'
      ∧ s.total_time ≤ s'.total_time ∧ s.entries ≤ s'.entries

/-- The time bound after processing a sample list: the last sample's
timestamp, or `b` when the list is empty. -/
def endBound (b : ℚ) (samples : List (Option (ℚ × ℚ) × ℚ)) : ℚ :=
  samples.foldl (fun _ x => x.2) b

/-! ## Helper lemmas -/

/-- A successful lookup exhibits a member of the dictionary. -/
theorem dictGet_mem {k : String} {s : ZoneState}
    {d : List (String × ZoneState)} (h : dictGet k d = some s) :
    (k, s) ∈ d := by
  induction d with
  | nil => cases h
  | cons kv rest ih =>
      obtain ⟨k', v⟩ := kv
      rw [dictGet] at h
      split at h
      · cases h
        rename_i heq
        simp [heq]
      · exact List.mem_cons_of_mem _ (ih h)

/-- Overwriting a key rewrites exactly that key's lookup. -/
theorem dictGet_setState_self (k : String) (v : ZoneState)
    (d : List (String × ZoneState)) :
    dictGet k (setState k v d) = (dictGet k d).map (fun _ => v) := by
  induction d with
  | nil => rfl
  | cons kv rest ih =>
      obtain ⟨k', v'⟩ := kv
      by_cases hk : k' = k
      · subst hk
        show dictGet k' ((if k' = k' then (k', v) else (k', v'))
              :: setState k' v rest)
            = Option.map (fun _ => v) (dictGet k' ((k', v') :: rest))
        rw [if_pos rfl]
        show (if k' = k' then some v else dictGet k' (setState k' v rest))
            = Option.map (fun _ => v)
                (if k' = k' then some v' else dictGet k' rest)
        rw [if_pos rfl, if_pos rfl]
        rfl
      · show dictGet k ((if k' = k then (k, v) else (k', v'))
              :: setState k v rest)
            = Option.map (fun _ => v) (dictGet k ((k', v') :: rest))
        rw [if_neg hk]
        show (if k' = k then some v' else dictGet k (setState k v rest))
            = Option.map (fun _ => v)
                (if k' = k then some v' else dictGet k rest)
        rw [if_neg hk, if_neg hk]
        exact ih

/-- Overwriting a different key leaves a lookup unchanged. -/
theorem dictGet_setState_ne {k k' : String} (hne : k ≠ k') (v : ZoneState)
    (d : List (String × ZoneState)) :
    dictGet k (setState k' v d) = dictGet k d := by
  induction d with
  | nil => rfl
  | cons kv rest ih =>
      obtain ⟨k0, v0⟩ := kv
      show dictGet k ((if k0 = k' then (k', v) else (k0, v0))
            :: setState k' v rest)
          = dictGet k ((k0, v0) :: rest)
      by_cases hk : k0 = k'
      · subst hk
        rw [if_pos rfl]
        show (if k0 = k then some v else dictGet k (setState k0 v rest))
            = (if k0 = k then some v0 else dictGet k rest)
        rw [if_neg (fun h => hne h.symm), if_neg (fun h => hne h.symm)]
        exact ih
      · rw [if_neg hk]
        show (if k0 = k then some v0 else dictGet k (setState k' v rest))
            = (if k0 = k then some v0 else dictGet k rest)
        by_cases h2 : k0 = k
        · rw [if_pos h2, if_pos h2]
        · rw [if_neg h2, if_neg h2]
          exact ih

/-- After a transition the `inside` flag always equals the containment
outcome of the driving point. -/
theorem applyTransition_inside (c : Bool) (t : ℚ) (s : ZoneState) :
    (applyTransition c t s).inside = c := by
  cases c <;> cases hs : s.inside <;> simp [applyTransition, hs]

/-- A record whose `inside` flag already equals the containment outcome is
left unchanged by the transition. -/
theorem applyTransition_fixed (c : Bool) (t : ℚ) (s : ZoneState)
    (h : s.inside = c) : applyTransition c t s = s := by
  cases c <;> simp [applyTransition, h]

/-- The step with a missing record is a no-op. -/
theorem stepRegion_eq_none {r : Region} {d : List (String × ZoneState)}
    (p : ℚ × ℚ) (t : ℚ) (hg : dictGet r.rid d = none) :
    stepRegion p t d r = d := by
  simp [stepRegion, hg]

/-- The step with a present record: transition it and write it back
(unless unchanged, where the code performs no mutation). -/
theorem stepRegion_eq_some {r : Region} {d : List (String × ZoneState)}
    {s : ZoneState} (p : ℚ × ℚ) (t : ℚ) (hg : dictGet r.rid d = some s) :
    stepRegion p t d r
      = (if applyTransition (r.contains p) t s = s then d
         else setState r.rid (applyTransition (r.contains p) t s) d) := by
  simp [stepRegion, hg]

/-- A region's step rewrites its own record by the transition function. -/
theorem dictGet_stepRegion_self (p : ℚ × ℚ) (t : ℚ)
    (d : List (String × ZoneState)) (r : Region) :
    dictGet r.rid (stepRegion p t d r)
      = (dictGet r.rid d).map (applyTransition (r.contains p) t) := by
  cases hg : dictGet r.rid d with
  | none => rw [stepRegion_eq_none p t hg, hg]; rfl
  | some s =>
      rw [stepRegion_eq_some p t hg]
      split
      · rename_i hfix
        rw [hg]
        show some s = some (applyTransition (r.contains p) t s)
        rw [hfix]
      · rw [dictGet_setState_self, hg]; rfl

/-- A region's step leaves every other key's lookup unchanged. -/
theorem dictGet_stepRegion_ne {k : String} {r : Region}
    (hne : k ≠ r.rid) (p : ℚ × ℚ) (t : ℚ)
    (d : List (String × ZoneState)) :
    dictGet k (stepRegion p t d r) = dictGet k d := by
  cases hg : dictGet r.rid d with
  | none => rw [stepRegion_eq_none p t hg]
  | some s =>
      rw [stepRegion_eq_some p t hg]
      split
      · rfl
      · exact dictGet_setState_ne hne _ d

/-- Folding the step over regions with other identifiers leaves a key's
lookup unchanged. -/
theorem dictGet_foldl_not_mem {k : String} (p : ℚ × ℚ) (t : ℚ) :
    ∀ (rs : List Region) (d : List (String × ZoneState)),
      k ∉ rs.map Region.rid →
      dictGet k (rs.foldl (stepRegion p t) d) = dictGet k d := by
  intro rs
  induction rs with
  | nil => intro d _; rfl
  | cons r rest ih =>
      intro d hk
      rw [List.map_cons, List.mem_cons] at hk
      push_neg at hk
      rw [List.foldl_cons, ih _ hk.2, dictGet_stepRegion_ne hk.1]

/-- `pyInt` is the identity on integers. -/
theorem pyInt_intCast (a : ℤ) : pyInt (a : ℚ) = a := by
  unfold pyInt
  split <;> simp

/-- Every member of a list heads some edge of the closed polygon on it. -/
theorem mem_edges_fst {l : List (ℤ × ℤ)} {x : ℤ × ℤ} (hx : x ∈ l) :
    ∃ w, (x, w) ∈ edges l := by
  rcases List.mem_iff_getElem.mp hx with ⟨i, hi, rfl⟩
  have hlen : (l.rotate 1).length = l.length := List.length_rotate l 1
  have hi2 : i < (l.rotate 1).length := by omega
  have hi3 : i < (l.zip (l.rotate 1)).length := by
    simpa [List.length_zip, hlen] using hi
  refine ⟨(l.rotate 1).get ⟨i, hi2⟩, ?_⟩
  rw [edges]
  refine List.mem_iff_getElem.mpr ⟨i, hi3, ?_⟩
  simp

/-- A segment contains its own first endpoint. -/
theorem onSegment_self (a b : ℤ × ℤ) :
    onSegment a b ((a.1 : ℚ), (a.2 : ℚ)) = true := by
  rw [onSegment, decide_eq_true_eq]
  refine ⟨by ring, min_le_left _ _, le_max_left _ _,
    min_le_left _ _, le_max_left _ _⟩

/-- A polygon's containment test accepts each of its stored vertices. -/
theorem contains_stored_vertex (id : String) (pts : List (ℤ × ℤ))
    (v : ℤ × ℤ) (hv : v ∈ pts) :
    (Region.poly id pts).contains ((v.1 : ℚ), (v.2 : ℚ)) = true := by
  rcases mem_edges_fst hv with ⟨w, hw⟩
  have hany : (edges pts).any
      (fun e => onSegment e.1 e.2 ((v.1 : ℚ), (v.2 : ℚ))) = true := by
    rw [List.any_eq_true]
    exact ⟨(v, w), hw, onSegment_self v w⟩
  rw [Region.contains, pointPolygonTest, if_pos hany]
  exact decide_eq_true le_rfl

/-- `dictGet` on the freshly built comprehension dictionary. -/
theorem dictGet_init (i : String) (ks : List String) (v : ZoneState) :
    dictGet i (ks.map (fun k => (k, v)))
      = if i ∈ ks then some v else none := by
  induction ks with
  | nil => simp [dictGet]
  | cons k ks ih =>
      by_cases hk : k = i
      · subst hk; simp [dictGet]
      · simp [dictGet, hk, ih, List.mem_cons, Ne.symm hk]

/-- `firstDedup` produces a duplicate-free list. -/
theorem firstDedup_nodup (l : List String) : (firstDedup l).Nodup := by
  induction l with
  | nil => exact List.nodup_nil
  | cons k ks ih =>
      rw [firstDedup]
      refine List.nodup_cons.mpr ⟨?_, ih.filter _⟩
      intro hmem
      have := (List.mem_filter.mp hmem).2
      simp at this

/-- `firstDedup` preserves membership. -/
theorem mem_firstDedup (i : String) (l : List String) :
    i ∈ firstDedup l ↔ i ∈ l := by
  induction l with
  | nil => simp [firstDedup]
  | cons k ks ih =>
      rw [firstDedup]
      by_cases hk : i = k
      · subst hk; simp
      · simp [hk, List.mem_filter, ih]

/-- Weakening the time bound of a record invariant. -/
theorem recordInv_mono {b t : ℚ} {s : ZoneState} (h : RecordInv b s)
    (hbt : b ≤ t) : RecordInv t s :=
  ⟨h.1, fun u hu => le_trans (h.2 u hu) hbt⟩

/-- Weakening the time bound of a dictionary invariant. -/
theorem statesInv_mono {b t : ℚ} {d : List (String × ZoneState)}
    (h : StatesInv b d) (hbt : b ≤ t) : StatesInv t d :=
  fun kv hkv => recordInv_mono (h kv hkv) hbt

/-- `DictMono` is reflexive. -/
theorem dictMono_rfl (d : List (String × ZoneState)) : DictMono d d :=
  fun _ s h => ⟨s, h, le_refl _, le_refl _⟩

/-- `DictMono` is transitive. -/
theorem dictMono_trans {d₁ d₂ d₃ : List (String × ZoneState)}
    (h₁ : DictMono d₁ d₂) (h₂ : DictMono d₂ d₃) : DictMono d₁ d₃ := by
  intro k s hs
  obtain ⟨s', hs', ht', he'⟩ := h₁ k s hs
  obtain ⟨s'', hs'', ht'', he''⟩ := h₂ k s' hs'
  exact ⟨s'', hs'', le_trans ht' ht'', le_trans he' he''⟩

/-- Core transition lemma: from a record satisfying the invariant at the
current timestamp, the transition preserves the invariant and never
decreases `total_time` or `entries`. -/
theorem applyTransition_spec (c : Bool) (t : ℚ) (s : ZoneState)
    (h : RecordInv t s) :
    RecordInv t (applyTransition c t s)
    ∧ s.total_time ≤ (applyTransition c t s).total_time
    ∧ s.entries ≤ (applyTransition c t s).entries := by
  obtain ⟨hiff, hb⟩ := h
  by_cases h1 : (c && !s.inside) = true
  · rw [applyTransition, if_pos h1]
    exact ⟨⟨rfl, fun u hu => by cases hu; exact le_refl t⟩,
      le_refl _, Nat.le_succ _⟩
  · by_cases h2 : (!c && s.inside) = true
    · rw [applyTransition, if_neg h1, if_pos h2]
      have hins : s.inside = true := by
        rcases Bool.and_eq_true _ _ |>.mp h2 with ⟨_, h⟩
        exact h
      have hsome : s.enter_time.isSome = true := by rw [← hiff, hins]
      obtain ⟨u, hu⟩ := Option.isSome_iff_exists.mp hsome
      have hut : u ≤ t := hb u hu
      refine ⟨⟨rfl, fun u' hu' => by cases hu'⟩, ?_, le_refl _⟩
      rw [hu]
      show s.total_time ≤ s.total_time + (t - u)
      linarith
    · rw [applyTransition, if_neg h1, if_neg h2]
      exact ⟨⟨hiff, hb⟩, le_refl _, le_refl _⟩

/-- One region step preserves the dictionary invariant and is pointwise
monotone. -/
theorem stepRegion_spec (p : ℚ × ℚ) (t : ℚ) (d : List (String × ZoneState))
    (r : Region) (h : StatesInv t d) :
    StatesInv t (stepRegion p t d r) ∧ DictMono d (stepRegion p t d r) := by
  cases hg : dictGet r.rid d with
  | none => rw [stepRegion_eq_none p t hg]; exact ⟨h, dictMono_rfl d⟩
  | some s =>
      have hs : RecordInv t s := h (r.rid, s) (dictGet_mem hg)
      have hspec := applyTransition_spec (r.contains p) t s hs
      rw [stepRegion_eq_some p t hg]
      split
      · exact ⟨h, dictMono_rfl d⟩
      · constructor
        · intro kv hkv
          rw [setState] at hkv
          obtain ⟨kv₀, hkv₀, hmap⟩ := List.mem_map.mp hkv
          by_cases hk : kv₀.1 = r.rid
          · rw [if_pos hk] at hmap
            rw [← hmap]
            exact hspec.1
          · rw [if_neg hk] at hmap
            rw [← hmap]
            exact h kv₀ hkv₀
        · intro k s₀ hs₀
          by_cases hk : k = r.rid
          · subst hk
            rw [hg] at hs₀
            cases hs₀
            refine ⟨applyTransition (r.contains p) t s, ?_,
              hspec.2.1, hspec.2.2⟩
            rw [dictGet_setState_self, hg]
            rfl
          · exact ⟨s₀, by rw [dictGet_setState_ne hk]; exact hs₀,
              le_refl _, le_refl _⟩

/-- The region fold of one `update` call preserves the invariant and is
pointwise monotone. -/
theorem foldl_stepRegion_spec (p : ℚ × ℚ) (t : ℚ) :
    ∀ (rs : List Region) (d : List (String × ZoneState)),
      StatesInv t d →
      StatesInv t (rs.foldl (stepRegion p t) d)
      ∧ DictMono d (rs.foldl (stepRegion p t) d) := by
  intro rs
  induction rs with
  | nil => intro d h; exact ⟨h, dictMono_rfl d⟩
  | cons r rest ih =>
      intro d h
      have h₁ := stepRegion_spec p t d r h
      have h₂ := ih (stepRegion p t d r) h₁.1
      exact ⟨h₂.1, dictMono_trans h₁.2 h₂.2⟩

/-- One `update` call, from any bound not past the call's timestamp,
re-establishes the invariant at that timestamp and is pointwise
monotone. -/
theorem update_spec (e : EventLogic) (pos : Option (ℚ × ℚ)) (t b : ℚ)
    (hbt : b ≤ t) (h : StatesInv b e.states) :
    StatesInv t (e.update pos t).states
    ∧ DictMono e.states (e.update pos t).states := by
  cases pos with
  | none => exact ⟨statesInv_mono h hbt, dictMono_rfl _⟩
  | some p =>
      exact foldl_stepRegion_spec p t e.regions e.states
        (statesInv_mono h hbt)

/-- Folding a sorted sample stream whose timestamps dominate the current
bound preserves the invariant (at the final bound) and is pointwise
monotone. -/
theorem runUpdates_spec :
    ∀ (samples : List (Option (ℚ × ℚ) × ℚ)) (e : EventLogic) (b : ℚ),
      StatesInv b e.states →
      (∀ x ∈ samples, b ≤ x.2) →
      List.Pairwise (fun a c => a.2 ≤ c.2) samples →
      StatesInv (endBound b samples) (runUpdates e samples).states
      ∧ DictMono e.states (runUpdates e samples).states := by
  intro samples
  induction samples with
  | nil => intro e b h _ _; exact ⟨h, dictMono_rfl _⟩
  | cons x rest ih =>
      intro e b h hlb hpw
      have hbt : b ≤ x.2 := hlb x (List.mem_cons_self _ _)
      have h₁ := update_spec e x.1 x.2 b hbt h
      have hrest := List.pairwise_cons.mp hpw
      have h₂ := ih (e.update x.1 x.2) x.2 h₁.1
        (fun y hy => hrest.1 y hy) hrest.2
      exact ⟨h₂.1, dictMono_trans h₁.2 h₂.2⟩

/-- The final bound is the initial one or one of the sample timestamps. -/
theorem endBound_cases :
    ∀ (l : List (Option (ℚ × ℚ) × ℚ)) (b : ℚ),
      endBound b l = b ∨ endBound b l ∈ l.map Prod.snd := by
  intro l
  induction l with
  | nil => intro b; exact Or.inl rfl
  | cons x rest ih =>
      intro b
      rcases ih x.2 with h | h
      · refine Or.inr ?_
        rw [show endBound b (x :: rest) = endBound x.2 rest from rfl, h,
          List.map_cons]
        exact List.mem_cons_self _ _
      · refine Or.inr ?_
        rw [show endBound b (x :: rest) = endBound x.2 rest from rfl,
          List.map_cons]
        exact List.mem_cons_of_mem _ h

/-- The record of the fresh engine satisfies the invariant at every
bound. -/
theorem statesInv_init (regions : List Region) (b : ℚ) :
    StatesInv b (EventLogic.init ⟨regions⟩).states := by
  intro kv hkv
  obtain ⟨i, _, rfl⟩ := List.mem_map.mp hkv
  exact ⟨rfl, fun u hu => by cases hu⟩

/-- After the whole region fold, each region with an identifier not
repeated later holds a record whose `inside` flag equals its containment
outcome. -/
theorem foldl_inside (p : ℚ × ℚ) (t : ℚ) :
    ∀ (rs : List Region), (rs.map Region.rid).Nodup →
      ∀ (d : List (String × ZoneState)) (r : Region), r ∈ rs →
        ∀ s, dictGet r.rid (rs.foldl (stepRegion p t) d) = some s →
          s.inside = r.contains p := by
  intro rs
  induction rs with
  | nil => intro _ d r hr; cases hr
  | cons r₀ rest ih =>
      intro hnd d r hr s hs
      rw [List.map_cons, List.nodup_cons] at hnd
      rw [List.foldl_cons] at hs
      rcases List.mem_cons.mp hr with rfl | hr'
      · rw [dictGet_foldl_not_mem p t rest _ hnd.1,
          dictGet_stepRegion_self] at hs
        cases hg : dictGet r.rid d with
        | none => rw [hg] at hs; cases hs
        | some s₀ =>
            rw [hg] at hs
            cases hs
            exact applyTransition_inside _ t s₀
      · exact ih hnd.2 (stepRegion p t d r₀) r hr' s hs

/-- When every region's record already reflects its containment outcome,
the whole region fold is a no-op. -/
theorem foldl_noop (p : ℚ × ℚ) (t : ℚ) :
    ∀ (rs : List Region) (d : List (String × ZoneState)),
      (∀ r ∈ rs, ∀ s, dictGet r.rid d = some s → s.inside = r.contains p) →
      rs.foldl (stepRegion p t) d = d := by
  intro rs
  induction rs with
  | nil => intro d _; rfl
  | cons r rest ih =>
      intro d h
      have hstep : stepRegion p t d r = d := by
        cases hg : dictGet r.rid d with
        | none => exact stepRegion_eq_none p t hg
        | some s =>
            have hins : s.inside = r.contains p :=
              h r (List.mem_cons_self _ _) s hg
            rw [stepRegion_eq_some p t hg,
              if_pos (applyTransition_fixed _ t s hins)]
      rw [List.foldl_cons, hstep]
      exact ih d (fun r' hr' => h r' (List.mem_cons_of_mem _ hr'))

/-! ## Claim theorems -/

/-- Claim C4 (confirmed): a polygon region constructs successfully exactly
when at least 3 vertices are supplied and errors exactly when fewer are; a
circle region constructs successfully exactly when the radius is strictly
positive and errors exactly when it is non-positive. -/
theorem c4_construction_errors (id : String) (pts : List (ℚ × ℚ))
    (c : ℚ × ℚ) (r : ℚ) :
    ((∃ R, mkPolygonRegion id pts = Except.ok R) ↔ 3 ≤ pts.length)
    ∧ ((∃ msg, mkPolygonRegion id pts = Except.error msg) ↔ pts.length < 3)
    ∧ ((∃ R, mkCircleRegion id c r = Except.ok R) ↔ 0 < r)
    ∧ ((∃ msg, mkCircleRegion id c r = Except.error msg) ↔ r ≤ 0) := by
  refine ⟨?_, ?_, ?_, ?_⟩
  · rw [mkPolygonRegion]
    split
    · simp only [List.length_map] at *; constructor
      · rintro ⟨R, hR⟩; cases hR
      · omega
    · simp only [List.length_map] at *; constructor
      · intro _; omega
      · exact fun _ => ⟨_, rfl⟩
  · rw [mkPolygonRegion]
    split
    · simp only [List.length_map] at *; constructor
      · intro _; omega
      · exact fun _ => ⟨_, rfl⟩
    · simp only [List.length_map] at *; constructor
      · rintro ⟨msg, hmsg⟩; cases hmsg
      · omega
  · rw [mkCircleRegion]
    split
    · constructor
      · rintro ⟨R, hR⟩; cases hR
      · intro h; linarith
    · constructor
      · intro _; linarith [not_le.mp (by assumption : ¬ r ≤ 0)]
      · exact fun _ => ⟨_, rfl⟩
  · rw [mkCircleRegion]
    split
    · exact ⟨fun _ => by assumption, fun _ => ⟨_, rfl⟩⟩
    · constructor
      · rintro ⟨msg, hmsg⟩; cases hmsg
      · intro h; exact absurd h (by assumption)

/-- Claim C7 (confirmed): updating with the absent position marker leaves
the engine — in particular every occupancy record — exactly unchanged. -/
theorem c7_absent_noop (e : EventLogic) (t : ℚ) : e.update none t = e := rfl

/-- Claim C1, counterexample: on the spec's scenario (circle at (100,100),
radius 10; samples (100,100)@0, (100,100)@1, (200,200)@2, (100,100)@3) the
engine's record for "center" is `entries=2, inside=true, enter_time=3,
total_time=2` — not `total_time=1` as claimed. -/
theorem c1_scenario_counterexample :
    dictGet "center" (runUpdates
        (EventLogic.init ⟨[Region.circle "center" (100, 100) 10]⟩)
        [(some (100, 100), 0), (some (100, 100), 1),
         (some (200, 200), 2), (some (100, 100), 3)]).states
      ≠ some { inside := true, enter_time := some 3,
               total_time := 1, entries := 2 } := by with_unfolding_all decide

/-- Claim C1, amended (corrected): the scenario ends with `entries=2`,
`inside=true`, `enter_time=3.0` and `total_time=2.0` (the first visit is
closed at the sample t=2.0, accruing 2.0−0.0). -/
theorem c1_scenario :
    dictGet "center" (runUpdates
        (EventLogic.init ⟨[Region.circle "center" (100, 100) 10]⟩)
        [(some (100, 100), 0), (some (100, 100), 1),
         (some (200, 200), 2), (some (100, 100), 3)]).states
      = some { inside := true, enter_time := some 3,
               total_time := 2, entries := 2 } := by with_unfolding_all decide

/-- Claim C2 (code bug): a single contour of area 100 — below
`min_area = 4000` but above the 5-pixel noise floor — survives the
fallback filter, yet the subsequent `area < min_area` check still discards
it, so `locate` reports "not found" instead of the promised centroid. -/
theorem c2_fallback_dead :
    locate 4000 [⟨100, 100, 5000, 5000⟩] = Except.ok none := by
  with_unfolding_all rfl

/-- Claim C3 (code bug): a frame whose mask yields one speck contour of
area 3 (below the noise floor) makes the fallback filter empty, and the
code then raises `ValueError` from `max()` on an empty sequence instead of
returning "not found". -/
theorem c3_raises_on_tiny_contours :
    locate 4000 [⟨3, 3, 0, 0⟩]
      = Except.error "max() arg is an empty sequence" := by
  with_unfolding_all rfl

/-- Claim C5, counterexample: a region list with a duplicated identifier
is accepted by Region Set construction (no rejection), and the engine then
holds a single record for the two regions. -/
theorem c5_duplicate_ids_accepted :
    mkRegionManager [Region.circle "a" (0, 0) 1, Region.circle "a" (5, 5) 1]
      = Except.ok ⟨[Region.circle "a" (0, 0) 1, Region.circle "a" (5, 5) 1]⟩
    ∧ (EventLogic.init
        ⟨[Region.circle "a" (0, 0) 1, Region.circle "a" (5, 5) 1]⟩).states
      = [("a", ZoneState.init)] :=
  ⟨rfl, by with_unfolding_all rfl⟩

/-- Claim C5, amended (corrected): Region Set construction performs no
uniqueness check and always succeeds; the engine's mapping holds exactly
one record per *distinct* identifier (duplicate-free key list, a key
present exactly for the identifiers occurring among the regions). -/
theorem c5_one_record_per_distinct_id (regions : List Region) :
    mkRegionManager regions = Except.ok ⟨regions⟩
    ∧ ((EventLogic.init ⟨regions⟩).states.map Prod.fst).Nodup
    ∧ (∀ i, (∃ s, dictGet i (EventLogic.init ⟨regions⟩).states = some s)
          ↔ i ∈ regions.map Region.rid) := by
  refine ⟨rfl, ?_, ?_⟩
  · have hcomp : ((EventLogic.init ⟨regions⟩).states.map Prod.fst)
        = firstDedup (regions.map Region.rid) := by
      show ((firstDedup (regions.map Region.rid)).map
        (fun i => (i, ZoneState.init))).map Prod.fst = _
      rw [List.map_map]
      exact List.map_id _
    rw [hcomp]
    exact firstDedup_nodup _
  · intro i
    rw [show (EventLogic.init ⟨regions⟩).states
          = (firstDedup (regions.map Region.rid)).map
              (fun k => (k, ZoneState.init)) from rfl,
        dictGet_init]
    by_cases h : i ∈ firstDedup (regions.map Region.rid)
    · simp only [if_pos h]
      exact ⟨fun _ => (mem_firstDedup i _).mp h, fun _ => ⟨_, rfl⟩⟩
    · simp only [if_neg h]
      constructor
      · rintro ⟨s, hs⟩; cases hs
      · intro hm; exact absurd ((mem_firstDedup i _).mpr hm) h

/-- Claim C9, counterexample: the polygon supplied with the fractional
vertex (2, 3.9) constructs successfully (vertices truncated to (2, 3)),
but `contains((2, 3.9))` is false for the resulting region. -/
theorem c9_fractional_vertex_outside :
    mkPolygonRegion "t" [(0, 0), (4, 0), (2, 39 / 10)]
      = Except.ok (Region.poly "t" [(0, 0), (4, 0), (2, 3)])
    ∧ (Region.poly "t" [(0, 0), (4, 0), (2, 3)]).contains (2, 39 / 10)
      = false := by
  constructor
  · with_unfolding_all rfl
  · with_unfolding_all rfl

/-- Claim C9, amended (corrected): for every validly constructed polygon
region, every supplied vertex whose coordinates are integers satisfies
`contains(vertex) = true`; vertices with fractional coordinates are
truncated toward zero when stored and may fail the test. -/
theorem c9_integer_vertices_contained (id : String) (pts : List (ℚ × ℚ))
    (R : Region) (hR : mkPolygonRegion id pts = Except.ok R)
    (v : ℚ × ℚ) (hv : v ∈ pts)
    (hx : ∃ a : ℤ, v.1 = (a : ℚ)) (hy : ∃ b : ℤ, v.2 = (b : ℚ)) :
    R.contains v = true := by
  rcases hx with ⟨a, ha⟩
  rcases hy with ⟨b, hb⟩
  rw [mkPolygonRegion] at hR
  split at hR
  · cases hR
  · cases hR
    have hmem : (a, b) ∈ pts.map truncPoint := by
      refine List.mem_map.mpr ⟨v, hv, ?_⟩
      rw [truncPoint, ha, hb, pyInt_intCast, pyInt_intCast]
    have := contains_stored_vertex id (pts.map truncPoint) (a, b) hmem
    have hvab : v = ((a : ℚ), (b : ℚ)) := by
      rcases v with ⟨v1, v2⟩
      simp only at ha hb
      rw [ha, hb]
    rw [hvab]
    exact this

/-- Witness for C9's amended theorem: the integer triangle
(0,0), (4,0), (0,4) contains its own vertex (0,0). -/
theorem c9_integer_vertices_contained_witness :
    mkPolygonRegion "t" [(0, 0), (4, 0), (0, 4)]
      = Except.ok (Region.poly "t" [(0, 0), (4, 0), (0, 4)])
    ∧ (Region.poly "t" [(0, 0), (4, 0), (0, 4)]).contains (0, 0) = true :=
  ⟨by with_unfolding_all rfl,
    c9_integer_vertices_contained "t" [(0, 0), (4, 0), (0, 4)] _
      (by with_unfolding_all rfl) (0, 0) (List.mem_cons_self _ _)
      ⟨0, by norm_num⟩ ⟨0, by norm_num⟩⟩

/-- Claim C10 (confirmed): whenever `locate` reports a position, each
coordinate is the truncation toward zero of the selected contour's
moment ratio (`int(m10/m00)`, `int(m01/m00)`) — an integer with no
fractional part. -/
theorem c10_centroid_truncated (minArea : ℚ) (cnts : List Contour)
    (x y : ℚ) (h : locate minArea cnts = Except.ok (some (x, y))) :
    ∃ c, pyMaxByArea (fallbackCnts minArea cnts) = some c
      ∧ x = (pyInt (c.m10 / c.m00) : ℚ) ∧ y = (pyInt (c.m01 / c.m00) : ℚ)
      ∧ (∃ a : ℤ, x = (a : ℚ)) ∧ (∃ b : ℤ, y = (b : ℚ)) := by
  rw [locate] at h
  by_cases hemp : cnts.isEmpty
  · rw [if_pos hemp] at h
    simp at h
  · rw [if_neg hemp] at h
    cases hm : pyMaxByArea (fallbackCnts minArea cnts) with
    | none => rw [hm] at h; cases h
    | some cnt =>
        rw [hm] at h
        have h' : (if cnt.area < minArea then
              (Except.ok none : Except String (Option (ℚ × ℚ)))
            else if cnt.m00 = 0 then Except.ok none
            else Except.ok (some ((pyInt (cnt.m10 / cnt.m00) : ℚ),
                                  (pyInt (cnt.m01 / cnt.m00) : ℚ))))
            = Except.ok (some (x, y)) := h
        by_cases h1 : cnt.area < minArea
        · rw [if_pos h1] at h'; simp at h'
        · rw [if_neg h1] at h'
          by_cases h2 : cnt.m00 = 0
          · rw [if_pos h2] at h'; simp at h'
          · rw [if_neg h2] at h'
            simp only [Except.ok.injEq, Option.some.injEq,
              Prod.mk.injEq] at h'
            exact ⟨cnt, rfl, h'.1.symm, h'.2.symm,
              ⟨pyInt (cnt.m10 / cnt.m00), h'.1.symm⟩,
              ⟨pyInt (cnt.m01 / cnt.m00), h'.2.symm⟩⟩

/-- Witness for C10: a contour of area 5000 with moments m00=3, m10=10,
m01=5 yields the truncated centroid (3, 1). -/
theorem c10_centroid_truncated_witness :
    locate 4000 [⟨5000, 3, 10, 5⟩] = Except.ok (some (3, 1))
    ∧ ∃ c, pyMaxByArea (fallbackCnts 4000 [⟨5000, 3, 10, 5⟩]) = some c
      ∧ (3 : ℚ) = (pyInt (c.m10 / c.m00) : ℚ)
      ∧ (1 : ℚ) = (pyInt (c.m01 / c.m00) : ℚ)
      ∧ (∃ a : ℤ, (3 : ℚ) = (a : ℚ)) ∧ (∃ b : ℤ, (1 : ℚ) = (b : ℚ)) :=
  ⟨by with_unfolding_all rfl,
    c10_centroid_truncated 4000 [⟨5000, 3, 10, 5⟩] 3 1
      (by with_unfolding_all rfl)⟩

/-- Claim C6 (confirmed): starting from the freshly constructed engine
(inside=false, enter_time absent, total_time=0, entries=0) and feeding any
sample stream with non-decreasing timestamps, after every call each
occupancy record has `enter_time` present exactly when `inside` is true,
and neither `total_time` nor `entries` decreases from one call to the
next. -/
theorem c6_occupancy_invariant (regions : List Region)
    (samples : List (Option (ℚ × ℚ) × ℚ))
    (hsorted : List.Pairwise (fun a c => a.2 ≤ c.2) samples) (n : ℕ) :
    (∀ kv ∈ (runUpdates (EventLogic.init ⟨regions⟩)
        (samples.take n)).states,
      kv.2.inside = kv.2.enter_time.isSome)
    ∧ (∀ k s, dictGet k (runUpdates (EventLogic.init ⟨regions⟩)
          (samples.take n)).states = some s →
        ∃ s', dictGet k (runUpdates (EventLogic.init ⟨regions⟩)
            (samples.take (n + 1))).states = some s'
          ∧ s.total_time ≤ s'.total_time ∧ s.entries ≤ s'.entries) := by
  cases samples with
  | nil =>
      constructor
      · intro kv hkv
        rw [List.take_nil] at hkv
        exact (statesInv_init regions 0 kv hkv).1
      · intro k s hs
        rw [List.take_nil] at hs ⊢
        exact ⟨s, hs, le_refl _, le_refl _⟩
  | cons y rest =>
      have hlb : ∀ x ∈ y :: rest, y.2 ≤ x.2 := by
        intro x hx
        rcases List.mem_cons.mp hx with rfl | hx'
        · exact le_refl _
        · exact (List.pairwise_cons.mp hsorted).1 x hx'
      have hpw_take : (List.take n (y :: rest)).Pairwise
          (fun a c => a.2 ≤ c.2) :=
        List.Pairwise.sublist (List.take_sublist n _) hsorted
      have hlb_take : ∀ x ∈ List.take n (y :: rest), y.2 ≤ x.2 :=
        fun x hx => hlb x (List.take_subset n _ hx)
      have hmain := runUpdates_spec (List.take n (y :: rest))
        (EventLogic.init ⟨regions⟩) y.2 (statesInv_init regions y.2)
        hlb_take hpw_take
      refine ⟨fun kv hkv => (hmain.1 kv hkv).1, ?_⟩
      by_cases hn : n < (y :: rest).length
      · have htake : List.take (n + 1) (y :: rest)
            = List.take n (y :: rest) ++ [(y :: rest)[n]] := by
          rw [List.take_succ, List.getElem?_eq_getElem hn]
          rfl
        have hrun : runUpdates (EventLogic.init ⟨regions⟩)
              (List.take (n + 1) (y :: rest))
            = (runUpdates (EventLogic.init ⟨regions⟩)
                (List.take n (y :: rest))).update
                ((y :: rest)[n]).1 ((y :: rest)[n]).2 := by
          rw [htake, runUpdates, List.foldl_append]
          rfl
        have hb : endBound y.2 (List.take n (y :: rest))
            ≤ ((y :: rest)[n]).2 := by
          rcases endBound_cases (List.take n (y :: rest)) y.2 with he | he
          · rw [he]
            exact hlb _ (List.getElem_mem _)
          · obtain ⟨x, hx, hx2⟩ := List.mem_map.mp he
            have hpa := (List.pairwise_append.mp
              (by rw [List.take_append_drop n (y :: rest)]
                  exact hsorted)).2.2
            have hmemd : (y :: rest)[n] ∈ List.drop n (y :: rest) := by
              rw [List.drop_eq_getElem_cons hn]
              exact List.mem_cons_self _ _
            rw [← hx2]
            exact hpa x hx _ hmemd
        intro k s hs
        rw [hrun]
        exact (update_spec _ _ _ _ hb hmain.1).2 k s hs
      · push_neg at hn
        have heq : List.take (n + 1) (y :: rest)
            = List.take n (y :: rest) := by
          rw [List.take_of_length_le hn,
            List.take_of_length_le (le_trans hn (Nat.le_succ n))]
        intro k s hs
        rw [heq]
        exact ⟨s, hs, le_refl _, le_refl _⟩

/-- Witness for C6: one circular region, two sorted samples (one inside at
t=0, one outside at t=1), checked after the first call. -/
theorem c6_occupancy_invariant_witness :
    List.Pairwise (fun a c => a.2 ≤ c.2)
      ([(some ((0 : ℚ), (0 : ℚ)), (0 : ℚ)), (some (10, 10), 1)] :
        List (Option (ℚ × ℚ) × ℚ))
    ∧ ((∀ kv ∈ (runUpdates (EventLogic.init ⟨[Region.circle "a" (0, 0) 5]⟩)
          (([(some ((0 : ℚ), (0 : ℚ)), (0 : ℚ)), (some (10, 10), 1)] :
            List (Option (ℚ × ℚ) × ℚ)).take 1)).states,
        kv.2.inside = kv.2.enter_time.isSome)
      ∧ (∀ k s, dictGet k (runUpdates
            (EventLogic.init ⟨[Region.circle "a" (0, 0) 5]⟩)
            (([(some ((0 : ℚ), (0 : ℚ)), (0 : ℚ)), (some (10, 10), 1)] :
              List (Option (ℚ × ℚ) × ℚ)).take 1)).states = some s →
          ∃ s', dictGet k (runUpdates
              (EventLogic.init ⟨[Region.circle "a" (0, 0) 5]⟩)
              (([(some ((0 : ℚ), (0 : ℚ)), (0 : ℚ)), (some (10, 10), 1)] :
                List (Option (ℚ × ℚ) × ℚ)).take (1 + 1))).states = some s'
            ∧ s.total_time ≤ s'.total_time ∧ s.entries ≤ s'.entries)) :=
  ⟨by with_unfolding_all decide,
    c6_occupancy_invariant [Region.circle "a" (0, 0) 5] _
      (by with_unfolding_all decide) 1⟩

/-- Claim C8 (confirmed): under the Region Set's unique-identifier
discipline, updating twice with the same `(position, t)` pair leaves every
occupancy record identical to its value after the first call. -/
theorem c8_update_idempotent (e : EventLogic) (pos : Option (ℚ × ℚ))
    (t : ℚ) (h : (e.regions.map Region.rid).Nodup) :
    (e.update pos t).update pos t = e.update pos t := by
  cases pos with
  | none => rfl
  | some p =>
      show ({ regions := e.regions,
              states := e.regions.foldl (stepRegion p t)
                (e.regions.foldl (stepRegion p t) e.states) } : EventLogic)
          = { regions := e.regions,
              states := e.regions.foldl (stepRegion p t) e.states }
      congr 1
      exact foldl_noop p t e.regions _
        (fun r hr s hs => foldl_inside p t e.regions h e.states r hr s hs)

/-- Witness for C8: a one-region engine updated twice with the same
sample. -/
theorem c8_update_idempotent_witness :
    (([Region.circle "a" ((0 : ℚ), (0 : ℚ)) 5].map Region.rid).Nodup)
    ∧ ((({ regions := [Region.circle "a" ((0 : ℚ), (0 : ℚ)) 5],
           states := [("a", ZoneState.init)] } : EventLogic).update
            (some (1, 1)) 2).update (some (1, 1)) 2
        = ({ regions := [Region.circle "a" ((0 : ℚ), (0 : ℚ)) 5],
             states := [("a", ZoneState.init)] } : EventLogic).update
            (some (1, 1)) 2) :=
  ⟨by with_unfolding_all decide,
    c8_update_idempotent _ _ _ (by with_unfolding_all decide)⟩

end DungeonMice
